import Mathlib

/-!
# Verification of the `valuecomponents` header-value parser

Shallow embedding of `internal/valuecomponents/valuecomponents.go` from the
`halimath/httputils` repository, together with proofs checking the
natural-language specification's claims against it.

Modelling conventions:

* Go strings are modelled as `List Char` / `String`.  The Go code advances a
  byte cursor `i` through the input `s` and only ever looks at `s[i:]`; we
  model the cursor position by the remaining suffix of the input.  All cursor
  advances in the source are by whole runes (`utf8.DecodeRuneInString` byte
  lengths), so the rune-level model is exact on valid UTF-8 input.
* `utf8.DecodeRuneInString("")` returns `(RuneError, 0)` in Go; we model the
  peek at end of input by matching on the empty list (the code only ever
  compares the decoded rune against `'='`, `','` and `';'`, and `RuneError`
  is none of these, while the length `0` makes the subsequent advance a
  no-op; both are reproduced by the `[]` branches below).
* Go's `map[string]string` (`Value.Pairs`) is modelled as an association
  list updated in place by key (`insertPair` mirrors `val.Pairs[key] = v`):
  an existing binding of the key is overwritten in place, a fresh key is
  appended.  List equality of two such lists built by the parser coincides
  with `reflect.DeepEqual` of the corresponding Go maps whenever the
  insertion sequences match.
* Go's `(result, error)` pairs: helper functions that the caller aborts on
  error are modelled with `Except`; the top-level `ParseValueList` returns
  `ValueList × Option ParseError` mirroring Go's two return values, with
  every `return nil, err` modelled as `([], some e)`.
* The two unbounded `for` loops of `ParseValueList` are modelled by
  fuel-indexed structural recursion (`innerLoopF`, `outerLoopF`).  Every
  iteration that loops again strictly consumes input, so fuel
  `length + 1` always suffices; this is proved below
  (`innerLoopF_commit_shrink`, `outerLoopF_fuel_irrelevant`) and the
  fuel-free wrapper instantiates exactly that bound.
-/

namespace ValueComponents

/-- Go `unicode.IsSpace`: the Unicode `White_Space` property. -/
def isSpace (c : Char) : Bool :=
  (0x09 ≤ c.toNat && c.toNat ≤ 0x0D) || c.toNat = 0x20 || c.toNat = 0x85 ||
    c.toNat = 0xA0 || c.toNat = 0x1680 ||
    (0x2000 ≤ c.toNat && c.toNat ≤ 0x200A) ||
    c.toNat = 0x2028 || c.toNat = 0x2029 || c.toNat = 0x202F ||
    c.toNat = 0x205F || c.toNat = 0x3000

/-- The Go constant `TokenChars`; `Char.ofNat 39` is the apostrophe and
`Char.ofNat 96` the backick character from the Go string literal. -/
def TokenChars : List Char :=
  ['!', '#', '$', '%', '&', Char.ofNat 39, '*', '+', '-', '.', '^', '_',
    Char.ofNat 96, '|', '~'] ++
    "0123456789abcdefghijklmnopqrstuvwxyzABCDEFGHIJKLMNOPQRSTUVWXYZ".data

/-- Go `isTokenChar`: `strings.ContainsRune(TokenChars, r)`. -/
def isTokenChar (c : Char) : Bool :=
  TokenChars.any (fun d => d = c)

/-- Go `consumeWhitespace` skips the maximal whitespace prefix and returns
its byte length; since the caller only ever uses it to advance the cursor,
we return the remaining suffix directly. -/
def consumeWhitespace (s : List Char) : List Char :=
  s.dropWhile isSpace

/-- Go `ParseToken`: the maximal prefix of token characters. -/
def ParseToken (s : String) : String :=
  String.mk (s.data.takeWhile isTokenChar)

/-- The two error kinds produced by the parser, carrying the same data as
the Go `fmt.Errorf` messages (`"not a quoted string: '%s'"` carries the
whole argument, `"unexpected delimiter: '%c' at '%s'"` carries the rune and
the remaining input). -/
inductive ParseError where
  | malformedQuotedString (arg : String)
  | unexpectedDelimiter (c : Char) (rest : String)
deriving Repr, DecidableEq

/-- Go `ParseQuotedString`: if the input does not begin with `"` it returns
`("", nil)`; otherwise it scans for the next `"` and returns the characters
strictly between the quotes, or an error if the input ends first.  (The Go
loop returns `v[1:i]` where `i` is the byte index of the first quote after
the opening one, i.e. the maximal quote-free prefix of the tail.) -/
def ParseQuotedString (v : String) : Except ParseError String :=
  match v.data with
  | [] => .ok ""
  | c :: rest =>
    if c = '"' then
      if rest.any (fun d => d = '"') then
        .ok (String.mk (rest.takeWhile (fun d => !(d = '"'))))
      else
        .error (.malformedQuotedString v)
    else .ok ""

/-- A single component value: Go `type Value struct { Primary string;
Pairs map[string]string }` with the map modelled as an association list
(see the module docstring). -/
structure Value where
  Primary : String
  Pairs : List (String × String)
deriving Repr, DecidableEq

/-- Go `type ValueList []Value`. -/
abbrev ValueList := List Value

/-- Go `val.Pairs[key] = v`: overwrite an existing binding of `key` in
place, otherwise append the new binding. -/
def insertPair : List (String × String) → String → String → List (String × String)
  | [], k, v => [(k, v)]
  | (k', v') :: rest, k, v =>
    if k' = k then (k, v) :: rest else (k', v') :: insertPair rest k v

/-- Go `tokenOrQuotedString`: returns the parsed element and, instead of the
consumed byte length `l`, directly the suffix the caller reaches after
`i += l` (for a quoted string Go consumes `len(r) + 2` bytes: both quotes
plus the interior). -/
def tokenOrQuotedString (s : List Char) : Except ParseError (List Char × List Char) :=
  match s with
  | [] => .ok ([], [])
  | c :: _ =>
    if c = '"' then
      match ParseQuotedString (String.mk s) with
      | .error e => .error e
      | .ok r => .ok (r.data, s.drop (r.data.length + 2))
    else
      .ok (s.takeWhile isTokenChar, s.dropWhile isTokenChar)

/-- Outcome of the inner `for` loop of `ParseValueList`: either `break
outer` (line 43, which abandons the in-progress value), or the normal
`break` (lines 76–80, after which line 91 appends the value) together with
the remaining input. -/
inductive InnerRes where
  | discardEnd
  | commit (val : Value) (rem : List Char)
deriving Repr, DecidableEq

/-- The inner `for` loop of Go `ParseValueList` (lines 40–89), fuel-indexed.
Each iteration: skip whitespace; `break outer` at end of input; read a
token-or-quoted-string element; skip whitespace; peek the next rune.  If it
is not `'='` the element becomes `Primary` and the cursor moves past the
peeked rune; otherwise the element is a key, the value after `'='` is read
and stored, and the delimiter is re-peeked (without advancing).  Then:
`','` or end of input commits the value (advancing past the rune once
more); `';'` advances once more and loops; anything else is an error.
The rune peek `utf8.DecodeRuneInString(s[i:])` is modelled by `head?` on
the remaining suffix and the advance `i += l` by `tail`: on an empty suffix
Go gets `(RuneError, 0)` — `RuneError` is not `'='`, so the primary branch
is taken with a zero-length advance, and the `i >= len(s)` test then
commits with the (empty) suffix unchanged; this is the `head? = none`
branch, whose committed remainder `[]` equals that empty suffix.  The fuel
only bounds the iteration count; any fuel exceeding the remaining length is
enough, and the loop's own recursion always has enough. -/
def innerLoopF : Nat → List Char → Value → Except ParseError InnerRes
  | 0, _, _ => .ok .discardEnd
  | f + 1, rem, val =>
    let rem1 := consumeWhitespace rem
    if rem1 = [] then .ok .discardEnd
    else
      match tokenOrQuotedString rem1 with
      | .error e => .error e
      | .ok (v, rem2) =>
        let rem2w := consumeWhitespace rem2
        match rem2w.head? with
        | none => .ok (.commit { val with Primary := String.mk v } [])
        | some c =>
          if c = '=' then
            match tokenOrQuotedString (consumeWhitespace rem2w.tail) with
            | .error e => .error e
            | .ok (v2, rem3) =>
              let val2 :=
                { val with
                  Pairs := insertPair val.Pairs (String.mk v) (String.mk v2) }
              let rem3w := consumeWhitespace rem3
              match rem3w.head? with
              | none => .ok (.commit val2 [])
              | some c2 =>
                if c2 = ',' then .ok (.commit val2 rem3w.tail)
                else if c2 = ';' then innerLoopF f rem3w.tail val2
                else .error (.unexpectedDelimiter c2 (String.mk rem3w))
          else
            let val2 := { val with Primary := String.mk v }
            let rem2t := rem2w.tail
            if c = ',' then .ok (.commit val2 rem2t.tail)
            else if rem2t = [] then .ok (.commit val2 rem2t)
            else if c = ';' then innerLoopF f rem2t.tail val2
            else .error (.unexpectedDelimiter c (String.mk rem2t))

/-- The outer `for` loop of Go `ParseValueList` (lines 30–92), fuel-indexed:
stop at end of input, otherwise run the inner loop on a fresh `Value` (Go
line 36: zero `Primary`, empty `Pairs` map) and either abort with
`(nil, err)`, stop discarding the in-progress value (`break outer`), or
append the committed value and continue.  Fuel `length + 1` is always
enough (`outerLoopF_fuel_irrelevant`). -/
def outerLoopF : Nat → List Char → ValueList → ValueList × Option ParseError
  | 0, _, vals => (vals, none)
  | f + 1, rem, vals =>
    if rem = [] then (vals, none)
    else
      match innerLoopF (rem.length + 1) rem ⟨"", []⟩ with
      | .error e => ([], some e)
      | .ok .discardEnd => (vals, none)
      | .ok (.commit val rem2) => outerLoopF f rem2 (vals ++ [val])

/-- Go `ParseValueList`. -/
def ParseValueList (s : String) : ValueList × Option ParseError :=
  outerLoopF (s.data.length + 1) s.data []

end ValueComponents

namespace ValueComponents

/-! ## Sanity checks of the embedding on the repository's own test table -/

example : ParseValueList "foo" = ([⟨"foo", []⟩], none) := by decide
example : ParseValueList "\"foo\"" = ([⟨"foo", []⟩], none) := by decide
example : ParseValueList "foo, bar" = ([⟨"foo", []⟩, ⟨"bar", []⟩], none) := by decide
example : ParseValueList "foo; charset=UTF-8" =
    ([⟨"foo", [("charset", "UTF-8")]⟩], none) := by decide
example :
    ParseValueList "proto=https; host=example.com; for=5.6.7.84, for=5.6.7.8; proto=http" =
      ([⟨"", [("proto", "https"), ("host", "example.com"), ("for", "5.6.7.84")]⟩,
        ⟨"", [("for", "5.6.7.8"), ("proto", "http")]⟩], none) := by decide
example : ParseValueList "" = ([], none) := by decide
example : ParseToken "foo 99" = "foo" := by decide
example : ParseQuotedString "\"foo\" 99" = .ok "foo" := rfl
example : ParseQuotedString "foo" = .ok "" := rfl

/-! ## Character-class facts -/

/-- Every token character is a non-space and differs from every delimiter
the parser ever peeks at. -/
theorem tokenChar_props {c : Char} (h : isTokenChar c = true) :
    isSpace c = false ∧ c ≠ '"' ∧ c ≠ '=' ∧ c ≠ ',' ∧ c ≠ ';' := by
  have hall : ∀ x ∈ TokenChars, isSpace x = false ∧ x ≠ '"' ∧ x ≠ '=' ∧ x ≠ ',' ∧ x ≠ ';' := by
    decide
  have hmem : c ∈ TokenChars := by
    rcases List.any_eq_true.mp h with ⟨d, hd, hdc⟩
    simpa [of_decide_eq_true hdc] using hd
  exact hall c hmem

/-! ## Whitespace and element-extraction lemmas -/

theorem consumeWhitespace_nil : consumeWhitespace [] = [] := rfl

theorem consumeWhitespace_cons {c : Char} {l : List Char} (h : isSpace c = false) :
    consumeWhitespace (c :: l) = c :: l := by
  simp [consumeWhitespace, List.dropWhile_cons, h]

/-- Heads drawn from token characters or non-space delimiters leave the
input untouched. -/
theorem consumeWhitespace_token_append {t rest : List Char}
    (ht : ∀ c ∈ t, isTokenChar c = true)
    (hr : ∀ c, rest.head? = some c → isSpace c = false) :
    consumeWhitespace (t ++ rest) = t ++ rest := by
  cases t with
  | nil =>
    cases rest with
    | nil => rfl
    | cons d r => exact consumeWhitespace_cons (hr d (by simp))
  | cons c t' =>
    exact consumeWhitespace_cons (tokenChar_props (ht c (by simp))).1

/-- All-space prefixes are dropped. -/
theorem consumeWhitespace_space_append {pre l : List Char}
    (hpre : ∀ c ∈ pre, isSpace c = true) :
    consumeWhitespace (pre ++ l) = consumeWhitespace l := by
  simpa [consumeWhitespace] using List.dropWhile_append_of_pos hpre

/-- Reading an element at a maximal token run followed by end of input or a
non-token, non-quote character returns the run and the rest. -/
theorem tokenOrQuotedString_token {t rest : List Char}
    (ht : ∀ c ∈ t, isTokenChar c = true)
    (hr : ∀ c, rest.head? = some c → (isTokenChar c = false ∧ c ≠ '"')) :
    tokenOrQuotedString (t ++ rest) = .ok (t, rest) := by
  have htake : List.takeWhile isTokenChar (t ++ rest) = t := by
    rw [List.takeWhile_append_of_pos ht]
    cases rest with
    | nil => simp
    | cons d r => simp [List.takeWhile_cons, (hr d (by simp)).1]
  have hdrop : List.dropWhile isTokenChar (t ++ rest) = rest := by
    rw [List.dropWhile_append_of_pos ht]
    cases rest with
    | nil => simp
    | cons d r => simp [List.dropWhile_cons, (hr d (by simp)).1]
  cases t with
  | nil =>
    cases rest with
    | nil => rfl
    | cons d r =>
      simp only [List.nil_append] at htake hdrop ⊢
      simp [tokenOrQuotedString, (hr d (by simp)).2, htake, hdrop]
  | cons c t' =>
    simp only [List.cons_append] at htake hdrop
    simp [tokenOrQuotedString, (tokenChar_props (ht c (by simp))).2.1, htake, hdrop]

/-- Reading an element at a quoted string returns its interior and the
input following the closing quote. -/
theorem tokenOrQuotedString_quoted {s after : List Char}
    (hs : ∀ c ∈ s, c ≠ '"') :
    tokenOrQuotedString ('"' :: (s ++ '"' :: after)) = .ok (s, after) := by
  have hq : ParseQuotedString (String.mk ('"' :: (s ++ '"' :: after))) = .ok (String.mk s) := by
    have hany : (s ++ '"' :: after).any (fun d => d = '"') = true := by
      refine List.any_eq_true.mpr ⟨'"', by simp, by simp⟩
    have htake : List.takeWhile (fun d => !(d = '"')) (s ++ '"' :: after) = s := by
      rw [List.takeWhile_append_of_pos (by intro a ha; simpa using hs a ha)]
      simp [List.takeWhile_cons]
    simp [ParseQuotedString, hany, htake]
  have hdrop : ('"' :: (s ++ '"' :: after)).drop (s.length + 2) = after := by
    have h1 : List.drop (s.length + 1) (s ++ '"' :: after) = after := by
      have hlen : (s ++ ['"']).length = s.length + 1 := by simp
      rw [show s ++ '"' :: after = (s ++ ['"']) ++ after by simp, ← hlen, List.drop_left]
    rw [show s.length + 2 = s.length + 1 + 1 from rfl, List.drop_succ_cons]
    exact h1
  simp only [tokenOrQuotedString]
  rw [if_pos trivial, hq]
  simp [hdrop]

/-- The element reader never lengthens the input. -/
theorem tokenOrQuotedString_length_le {s v r : List Char}
    (h : tokenOrQuotedString s = .ok (v, r)) : r.length ≤ s.length := by
  cases s with
  | nil =>
    simp only [tokenOrQuotedString, Except.ok.injEq, Prod.mk.injEq] at h
    rw [← h.2]
  | cons c s' =>
    simp only [tokenOrQuotedString] at h
    by_cases hc : c = '"'
    · rw [if_pos hc] at h
      cases hq : ParseQuotedString (String.mk (c :: s')) with
      | error e => rw [hq] at h; exact absurd h (by simp)
      | ok r' =>
        rw [hq] at h
        simp only [Except.ok.injEq, Prod.mk.injEq] at h
        rw [← h.2, List.length_drop]
        omega
    · rw [if_neg hc] at h
      simp only [Except.ok.injEq, Prod.mk.injEq] at h
      rw [← h.2]
      exact (List.dropWhile_sublist _).length_le

/-! ## Path lemmas for the parser loops -/

theorem innerLoopF_nil (f : Nat) (val : Value) :
    innerLoopF f [] val = .ok .discardEnd := by
  cases f <;> simp [innerLoopF, consumeWhitespace]

/-- Leading whitespace does not affect an inner-loop iteration. -/
theorem innerLoopF_skip_spaces {pre : List Char} (f : Nat) (rem : List Char) (val : Value)
    (hpre : ∀ c ∈ pre, isSpace c = true) :
    innerLoopF f (pre ++ rem) val = innerLoopF f rem val := by
  cases f with
  | zero => rfl
  | succ f => simp only [innerLoopF, consumeWhitespace_space_append hpre]

/-- An element followed by end of input commits the value with that element
as primary. -/
theorem innerLoopF_single (f : Nat) {rem v : List Char} (val : Value)
    (hne : rem ≠ [])
    (hw : consumeWhitespace rem = rem)
    (htok : tokenOrQuotedString rem = .ok (v, [])) :
    innerLoopF (f + 1) rem val = .ok (.commit { val with Primary := String.mk v } []) := by
  simp [innerLoopF, hw, hne, htok, consumeWhitespace_nil]

/-- An element followed by `','` commits the value as primary; the cursor
advances past the `','` and then once more (the double advance). -/
theorem innerLoopF_comma (f : Nat) {rem v rest : List Char} (val : Value)
    (hw : consumeWhitespace rem = rem)
    (htok : tokenOrQuotedString rem = .ok (v, ',' :: rest)) :
    innerLoopF (f + 1) rem val =
      .ok (.commit { val with Primary := String.mk v } rest.tail) := by
  have hne : rem ≠ [] := by
    intro h; subst h; simp [tokenOrQuotedString] at htok
  have h1 : (',' : Char) ≠ '=' := by decide
  have h2 : isSpace ',' = false := by decide
  simp [innerLoopF, hw, hne, htok, consumeWhitespace_cons h2, h1]

/-- An element followed by `';'` at the very end of the input commits the
value as primary (the `i >= len(s)` test fires after the first advance). -/
theorem innerLoopF_semi_end (f : Nat) {rem v : List Char} (val : Value)
    (hw : consumeWhitespace rem = rem)
    (htok : tokenOrQuotedString rem = .ok (v, [';'])) :
    innerLoopF (f + 1) rem val = .ok (.commit { val with Primary := String.mk v } []) := by
  have hne : rem ≠ [] := by
    intro h; subst h; simp [tokenOrQuotedString] at htok
  have h1 : (';' : Char) ≠ '=' := by decide
  have h2 : (';' : Char) ≠ ',' := by decide
  have h3 : isSpace ';' = false := by decide
  simp [innerLoopF, hw, hne, htok, consumeWhitespace_cons h3, h1, h2]

/-- An element followed by `';'` with more input sets the primary and loops,
with the double advance dropping the character right after the `';'`. -/
theorem innerLoopF_semi (f : Nat) {rem v rest : List Char} (val : Value)
    (hw : consumeWhitespace rem = rem)
    (htok : tokenOrQuotedString rem = .ok (v, ';' :: rest))
    (hrest : rest ≠ []) :
    innerLoopF (f + 1) rem val =
      innerLoopF f rest.tail { val with Primary := String.mk v } := by
  have hne : rem ≠ [] := by
    intro h; subst h; simp [tokenOrQuotedString] at htok
  have h1 : (';' : Char) ≠ '=' := by decide
  have h2 : (';' : Char) ≠ ',' := by decide
  have h3 : isSpace ';' = false := by decide
  simp [innerLoopF, hw, hne, htok, consumeWhitespace_cons h3, h1, h2, hrest]

/-- A `key=value` pair followed by end of input commits the value. -/
theorem innerLoopF_pair_end (f : Nat) {rem k rest v2 rem3 : List Char} (val : Value)
    (hw : consumeWhitespace rem = rem)
    (htok : tokenOrQuotedString rem = .ok (k, '=' :: rest))
    (htok2 : tokenOrQuotedString (consumeWhitespace rest) = .ok (v2, rem3))
    (h3 : consumeWhitespace rem3 = []) :
    innerLoopF (f + 1) rem val =
      .ok (.commit
        { val with Pairs := insertPair val.Pairs (String.mk k) (String.mk v2) } []) := by
  have hne : rem ≠ [] := by
    intro h; subst h; simp [tokenOrQuotedString] at htok
  have h2 : isSpace '=' = false := by decide
  simp [innerLoopF, hw, hne, htok, consumeWhitespace_cons h2, htok2, h3]

/-- A `key=value` pair followed by `','` commits the value; no double
advance happens on this path. -/
theorem innerLoopF_pair_comma (f : Nat) {rem k rest v2 rem3 rest2 : List Char} (val : Value)
    (hw : consumeWhitespace rem = rem)
    (htok : tokenOrQuotedString rem = .ok (k, '=' :: rest))
    (htok2 : tokenOrQuotedString (consumeWhitespace rest) = .ok (v2, rem3))
    (h3 : consumeWhitespace rem3 = ',' :: rest2) :
    innerLoopF (f + 1) rem val =
      .ok (.commit
        { val with Pairs := insertPair val.Pairs (String.mk k) (String.mk v2) } rest2) := by
  have hne : rem ≠ [] := by
    intro h; subst h; simp [tokenOrQuotedString] at htok
  have h2 : isSpace '=' = false := by decide
  have h4 : (',' : Char) ≠ '=' := by decide
  simp [innerLoopF, hw, hne, htok, consumeWhitespace_cons h2, htok2, h3, h4]

/-- A `key=value` pair followed by `';'` stores the pair and loops. -/
theorem innerLoopF_pair_semi (f : Nat) {rem k rest v2 rem3 rest2 : List Char} (val : Value)
    (hw : consumeWhitespace rem = rem)
    (htok : tokenOrQuotedString rem = .ok (k, '=' :: rest))
    (htok2 : tokenOrQuotedString (consumeWhitespace rest) = .ok (v2, rem3))
    (h3 : consumeWhitespace rem3 = ';' :: rest2) :
    innerLoopF (f + 1) rem val =
      innerLoopF f rest2
        { val with Pairs := insertPair val.Pairs (String.mk k) (String.mk v2) } := by
  have hne : rem ≠ [] := by
    intro h; subst h; simp [tokenOrQuotedString] at htok
  have h2 : isSpace '=' = false := by decide
  have h4 : (';' : Char) ≠ '=' := by decide
  have h5 : (';' : Char) ≠ ',' := by decide
  simp [innerLoopF, hw, hne, htok, consumeWhitespace_cons h2, htok2, h3, h4, h5]

theorem outerLoopF_nil (f : Nat) (vals : ValueList) :
    outerLoopF f [] vals = (vals, none) := by
  cases f <;> simp [outerLoopF]

/-- One outer iteration whose inner loop commits. -/
theorem outerLoopF_step_commit (f : Nat) {rem rem2 : List Char} (vals : ValueList)
    {val : Value} (hne : rem ≠ [])
    (hin : innerLoopF (rem.length + 1) rem ⟨"", []⟩ = .ok (.commit val rem2)) :
    outerLoopF (f + 1) rem vals = outerLoopF f rem2 (vals ++ [val]) := by
  conv_lhs => unfold outerLoopF
  rw [if_neg hne, hin]

/-- One outer iteration whose inner loop hits end of input and discards. -/
theorem outerLoopF_step_discard (f : Nat) {rem : List Char} (vals : ValueList)
    (hne : rem ≠ [])
    (hin : innerLoopF (rem.length + 1) rem ⟨"", []⟩ = .ok .discardEnd) :
    outerLoopF (f + 1) rem vals = (vals, none) := by
  conv_lhs => unfold outerLoopF
  rw [if_neg hne, hin]

/-- One outer iteration whose inner loop fails: the error is returned with
`nil` in place of the values accumulated so far. -/
theorem outerLoopF_step_error (f : Nat) {rem : List Char} (vals : ValueList)
    {e : ParseError} (hne : rem ≠ [])
    (hin : innerLoopF (rem.length + 1) rem ⟨"", []⟩ = .error e) :
    outerLoopF (f + 1) rem vals = ([], some e) := by
  conv_lhs => unfold outerLoopF
  rw [if_neg hne, hin]

/-! ## Termination: the fuel bound is always sufficient -/

/-- Whenever the inner loop commits, it has consumed at least one character
of its input. -/
theorem innerLoopF_commit_shrink (f : Nat) :
    ∀ {rem : List Char} {val v : Value} {r : List Char},
      innerLoopF f rem val = .ok (.commit v r) → r.length < rem.length := by
  induction f with
  | zero =>
    intro rem val v r h
    exact absurd h (by simp [innerLoopF])
  | succ f ih =>
    intro rem val v r h
    simp only [innerLoopF] at h
    split at h
    · exact absurd h (by simp)
    · rename_i hw0
      have hrem : rem ≠ [] := fun hr => hw0 (by simp [hr, consumeWhitespace])
      have hremlen : 0 < rem.length := List.length_pos.mpr hrem
      have hwle : (consumeWhitespace rem).length ≤ rem.length :=
        (List.dropWhile_sublist _).length_le
      split at h
      · exact absurd h (by simp)
      · rename_i v1 rem2 htok
        have h2le : rem2.length ≤ rem.length :=
          le_trans (tokenOrQuotedString_length_le htok) hwle
        have h2wle : (consumeWhitespace rem2).length ≤ rem2.length :=
          (List.dropWhile_sublist _).length_le
        split at h
        · simp only [Except.ok.injEq, InnerRes.commit.injEq] at h
          rw [← h.2]
          simpa using hremlen
        · rename_i c h2w
          have h2wne : consumeWhitespace rem2 ≠ [] := by
            intro hx; rw [hx] at h2w; exact absurd h2w (by simp)
          have h2wpos : 0 < (consumeWhitespace rem2).length := List.length_pos.mpr h2wne
          have h2t : (consumeWhitespace rem2).tail.length =
              (consumeWhitespace rem2).length - 1 := List.length_tail _
          split at h
          · -- the '=' branch
            split at h
            · exact absurd h (by simp)
            · rename_i v2 rem3 htok2
              have h3le : rem3.length ≤ (consumeWhitespace rem2).tail.length :=
                le_trans (tokenOrQuotedString_length_le htok2)
                  ((List.dropWhile_sublist _).length_le)
              have h3wle : (consumeWhitespace rem3).length ≤ rem3.length :=
                (List.dropWhile_sublist _).length_le
              split at h
              · simp only [Except.ok.injEq, InnerRes.commit.injEq] at h
                rw [← h.2]
                simpa using hremlen
              · rename_i c2 h3w
                have h3wne : consumeWhitespace rem3 ≠ [] := by
                  intro hx; rw [hx] at h3w; exact absurd h3w (by simp)
                have h3wpos : 0 < (consumeWhitespace rem3).length :=
                  List.length_pos.mpr h3wne
                have h3t : (consumeWhitespace rem3).tail.length =
                    (consumeWhitespace rem3).length - 1 := List.length_tail _
                split at h
                · simp only [Except.ok.injEq, InnerRes.commit.injEq] at h
                  rw [← h.2]
                  omega
                · split at h
                  · have hr := ih h
                    omega
                  · exact absurd h (by simp)
          · -- the primary branch
            split at h
            · simp only [Except.ok.injEq, InnerRes.commit.injEq] at h
              rw [← h.2]
              have h2tt : (consumeWhitespace rem2).tail.tail.length =
                  (consumeWhitespace rem2).tail.length - 1 := List.length_tail _
              omega
            · split at h
              · rename_i hc5
                simp only [Except.ok.injEq, InnerRes.commit.injEq] at h
                rw [← h.2, hc5]
                simpa using hremlen
              · rename_i hc5
                split at h
                · have hr := ih h
                  have h2tt : (consumeWhitespace rem2).tail.tail.length =
                      (consumeWhitespace rem2).tail.length - 1 := List.length_tail _
                  omega
                · exact absurd h (by simp)

/-- Any fuel exceeding the remaining input length gives the outer loop the
same result: the parse stabilizes after at most `length + 1` iterations. -/
theorem outerLoopF_fuel_irrelevant (f : Nat) :
    ∀ {g : Nat} {rem : List Char} {vals : ValueList},
      rem.length < f → rem.length < g →
      outerLoopF f rem vals = outerLoopF g rem vals := by
  induction f with
  | zero => intro g rem vals hf _; omega
  | succ f ih =>
    intro g rem vals hf hg
    cases g with
    | zero => omega
    | succ g =>
      by_cases hrem : rem = []
      · simp [outerLoopF, hrem]
      · simp only [outerLoopF, if_neg hrem]
        cases hin : innerLoopF (rem.length + 1) rem ⟨"", []⟩ with
        | error e => rfl
        | ok res =>
          cases res with
          | discardEnd => rfl
          | commit val r =>
            have hs := innerLoopF_commit_shrink _ hin
            exact ih (by omega) (by omega)

/-- Aggregate helper for the error-propagation claim: whatever the
accumulated values, an error result carries the empty list. -/
theorem outerLoopF_error_nil (f : Nat) :
    ∀ {rem : List Char} {vals vl : ValueList} {e : ParseError},
      outerLoopF f rem vals = (vl, some e) → vl = [] := by
  induction f with
  | zero =>
    intro rem vals vl e h
    simp only [outerLoopF, Prod.mk.injEq] at h
    exact absurd h.2 (by simp)
  | succ f ih =>
    intro rem vals vl e h
    simp only [outerLoopF] at h
    by_cases hrem : rem = []
    · rw [if_pos hrem] at h
      simp only [Prod.mk.injEq] at h
      exact absurd h.2 (by simp)
    · rw [if_neg hrem] at h
      split at h
      · simp only [Prod.mk.injEq] at h
        exact h.1.symm
      · simp only [Prod.mk.injEq] at h
        exact absurd h.2 (by simp)
      · exact ih h

/-! ## Spec-side definitions

The round-trip claim concerns a serialization that is described only in the
spec, not implemented in the repository; the following definitions follow
the spec's words. -/

/-- Joining a list of strings with a separator. -/
def joinSep (sep : String) : List String → String
  | [] => ""
  | [x] => x
  | x :: xs => x ++ sep ++ joinSep sep xs

/-- Modelled from the spec (round-trip invariant): within each `Value`, the
primary and the `key=value` pairs are joined with `;`. -/
def serializeValue (v : Value) : String :=
  joinSep ";" (v.Primary :: v.Pairs.map (fun p => p.1 ++ "=" ++ p.2))

/-- Modelled from the spec (round-trip invariant): the `Value`s of a
`ValueList` are joined with `,`. -/
def serializeValueList (vl : ValueList) : String :=
  joinSep "," (vl.map serializeValue)

/-- Amended serialization: each delimiter is followed by a single space
(`"; "` and `", "`), which is the whitespace the parser's double delimiter
advance requires. -/
def serializeValueWS (v : Value) : String :=
  joinSep "; " (v.Primary :: v.Pairs.map (fun p => p.1 ++ "=" ++ p.2))

/-- Amended serialization of a whole list, with `", "` between values. -/
def serializeValueListWS (vl : ValueList) : String :=
  joinSep ", " (vl.map serializeValueWS)

/-! ## The round-trip fragment

`wfValue` delimits the fragment of `Value`s on which the amended round-trip
holds: nonempty values whose primary, keys and values are all token
strings, with distinct keys (a duplicate key would be collapsed by the
map insertion on re-parse). -/

/-- Keys are pairwise distinct. -/
def noDupKeys : List (String × String) → Bool
  | [] => true
  | p :: rest => rest.all (fun q => !(q.1 = p.1)) && noDupKeys rest

/-- The round-trip fragment: token-only content, distinct keys, and at
least one of primary/pairs nonempty. -/
def wfValue (v : Value) : Prop :=
  (∀ c ∈ v.Primary.data, isTokenChar c = true) ∧
  (∀ p ∈ v.Pairs, (∀ c ∈ p.1.data, isTokenChar c = true) ∧
    (∀ c ∈ p.2.data, isTokenChar c = true)) ∧
  noDupKeys v.Pairs = true ∧
  (v.Primary ≠ "" ∨ v.Pairs ≠ [])

instance (v : Value) : Decidable (wfValue v) := by
  unfold wfValue
  infer_instance

theorem noDupKeys_cons {p : String × String} {ps : List (String × String)}
    (h : noDupKeys (p :: ps) = true) :
    (∀ q ∈ ps, q.1 ≠ p.1) ∧ noDupKeys ps = true := by
  simp only [noDupKeys, Bool.and_eq_true, List.all_eq_true] at h
  refine ⟨fun q hq => ?_, h.2⟩
  have := h.1 q hq
  simpa using this

/-- Inserting a fresh key appends the binding. -/
theorem insertPair_fresh {ps : List (String × String)} {k : String} (v : String)
    (h : ∀ q ∈ ps, q.1 ≠ k) : insertPair ps k v = ps ++ [(k, v)] := by
  induction ps with
  | nil => rfl
  | cons q qs ih =>
    have hq : q.1 ≠ k := h q (by simp)
    obtain ⟨k', v'⟩ := q
    simp only [insertPair, if_neg hq, List.cons_append, List.cons.injEq, true_and]
    exact ih (fun r hr => h r (by simp [hr]))

theorem joinSep_pair (sep x y : String) (ys : List String) :
    joinSep sep (x :: y :: ys) = x ++ sep ++ joinSep sep (y :: ys) := rfl

/-- A well-formed value serializes to a nonempty string. -/
theorem serializeValueWS_ne_nil {v : Value} (hv : wfValue v) :
    (serializeValueWS v).data ≠ [] := by
  obtain ⟨hprim, hpairs, hdup, hne⟩ := hv
  cases hps : v.Pairs with
  | nil =>
    have hp : v.Primary ≠ "" := by
      rcases hne with h | h
      · exact h
      · exact absurd hps h
    have : v.Primary.data ≠ [] := by
      intro hd; apply hp; cases hPrim : v.Primary; simp_all
    simpa [serializeValueWS, hps, joinSep] using this
  | cons p ps =>
    simp [serializeValueWS, hps, joinSep_pair, String.data_append]

theorem pairStr_data (p : String × String) (X : List Char) :
    (p.1 ++ "=" ++ p.2).data ++ X = p.1.data ++ ('=' :: (p.2.data ++ X)) := by
  simp [String.data_append, show ("=" : String).data = ['='] from rfl]

/-- Parsing the serialized pairs of a value: the inner loop consumes
`k1=v1; k2=v2; …; kn=vn`, adds each binding in order, and commits on the
trailing `", "` or end of input. -/
theorem innerLoopF_pairs_loop (ps : List (String × String)) :
    ∀ (f : Nat) (val : Value) (tail : List Char),
      ps ≠ [] →
      (∀ p ∈ ps, (∀ c ∈ p.1.data, isTokenChar c = true) ∧
        (∀ c ∈ p.2.data, isTokenChar c = true)) →
      (∀ p ∈ ps, ∀ q ∈ val.Pairs, q.1 ≠ p.1) →
      noDupKeys ps = true →
      (tail = [] ∨ ∃ more, tail = ',' :: ' ' :: more) →
      ((joinSep "; " (ps.map (fun p => p.1 ++ "=" ++ p.2))).data ++ tail).length < f →
      innerLoopF f ((joinSep "; " (ps.map (fun p => p.1 ++ "=" ++ p.2))).data ++ tail) val =
        .ok (.commit { val with Pairs := val.Pairs ++ ps } tail.tail) := by
  induction ps with
  | nil => intro f val tail hne; exact absurd rfl hne
  | cons p ps ih =>
    intro f val tail _ htoks hfresh hdup htail hfuel
    obtain ⟨hkey, hval⟩ := htoks p (by simp)
    obtain ⟨hdp, hdps⟩ := noDupKeys_cons hdup
    have htail_head_sp : ∀ c, tail.head? = some c → isSpace c = false := by
      rcases htail with rfl | ⟨more, rfl⟩
      · intro c hc; simp at hc
      · intro c hc; simp at hc; subst hc; decide
    have htail_head_tok : ∀ c, tail.head? = some c →
        (isTokenChar c = false ∧ c ≠ '"') := by
      rcases htail with rfl | ⟨more, rfl⟩
      · intro c hc; simp at hc
      · intro c hc; simp at hc; subst hc; exact ⟨by decide, by decide⟩
    have hinsfresh : ∀ q ∈ val.Pairs, q.1 ≠ p.1 := fun q hq => hfresh p (by simp) q hq
    have hins : insertPair val.Pairs (String.mk p.1.data) (String.mk p.2.data) =
        val.Pairs ++ [p] := insertPair_fresh p.2 hinsfresh
    cases ps with
    | nil =>
      have hrem : (joinSep "; " ([p].map (fun p => p.1 ++ "=" ++ p.2))).data ++ tail =
          p.1.data ++ ('=' :: (p.2.data ++ tail)) :=
        pairStr_data p tail
      cases f with
      | zero => exact absurd hfuel (by omega)
      | succ f =>
        rw [hrem]
        have hw : consumeWhitespace (p.1.data ++ ('=' :: (p.2.data ++ tail))) =
            p.1.data ++ ('=' :: (p.2.data ++ tail)) :=
          consumeWhitespace_token_append hkey
            (by intro c hc; simp at hc; subst hc; decide)
        have htok : tokenOrQuotedString (p.1.data ++ ('=' :: (p.2.data ++ tail))) =
            .ok (p.1.data, '=' :: (p.2.data ++ tail)) :=
          tokenOrQuotedString_token hkey
            (by intro c hc; simp at hc; subst hc; exact ⟨by decide, by decide⟩)
        have hw2 : consumeWhitespace (p.2.data ++ tail) = p.2.data ++ tail :=
          consumeWhitespace_token_append hval htail_head_sp
        have htok2 : tokenOrQuotedString (consumeWhitespace (p.2.data ++ tail)) =
            .ok (p.2.data, tail) := by
          rw [hw2]; exact tokenOrQuotedString_token hval htail_head_tok
        rcases htail with rfl | ⟨more, rfl⟩
        · rw [innerLoopF_pair_end f val hw htok htok2 (by simp [consumeWhitespace]),
            hins]
          rfl
        · rw [innerLoopF_pair_comma f val hw htok htok2
            (consumeWhitespace_cons (by decide)), hins]
          rfl
    | cons q qs =>
      have hrem : (joinSep "; " ((p :: q :: qs).map (fun p => p.1 ++ "=" ++ p.2))).data
            ++ tail =
          p.1.data ++ ('=' :: (p.2.data ++ (';' :: ' ' ::
            ((joinSep "; " ((q :: qs).map (fun p => p.1 ++ "=" ++ p.2))).data
              ++ tail)))) := by
        simp [joinSep_pair, String.data_append,
          show ("=" : String).data = ['='] from rfl,
          show ("; " : String).data = [';', ' '] from rfl]
      cases f with
      | zero => exact absurd hfuel (by omega)
      | succ f =>
        rw [hrem] at hfuel ⊢
        have hw : consumeWhitespace (p.1.data ++ ('=' :: (p.2.data ++ (';' :: ' ' ::
              ((joinSep "; " ((q :: qs).map (fun p => p.1 ++ "=" ++ p.2))).data
                ++ tail))))) =
            p.1.data ++ ('=' :: (p.2.data ++ (';' :: ' ' ::
              ((joinSep "; " ((q :: qs).map (fun p => p.1 ++ "=" ++ p.2))).data
                ++ tail)))) :=
          consumeWhitespace_token_append hkey
            (by intro c hc; simp at hc; subst hc; decide)
        have htok : tokenOrQuotedString (p.1.data ++ ('=' :: (p.2.data ++ (';' :: ' ' ::
              ((joinSep "; " ((q :: qs).map (fun p => p.1 ++ "=" ++ p.2))).data
                ++ tail))))) =
            .ok (p.1.data, '=' :: (p.2.data ++ (';' :: ' ' ::
              ((joinSep "; " ((q :: qs).map (fun p => p.1 ++ "=" ++ p.2))).data
                ++ tail)))) :=
          tokenOrQuotedString_token hkey
            (by intro c hc; simp at hc; subst hc; exact ⟨by decide, by decide⟩)
        have hw2 : consumeWhitespace (p.2.data ++ (';' :: ' ' ::
              ((joinSep "; " ((q :: qs).map (fun p => p.1 ++ "=" ++ p.2))).data
                ++ tail))) =
            p.2.data ++ (';' :: ' ' ::
              ((joinSep "; " ((q :: qs).map (fun p => p.1 ++ "=" ++ p.2))).data
                ++ tail)) :=
          consumeWhitespace_token_append hval
            (by intro c hc; simp at hc; subst hc; decide)
        have htok2 : tokenOrQuotedString (consumeWhitespace (p.2.data ++ (';' :: ' ' ::
              ((joinSep "; " ((q :: qs).map (fun p => p.1 ++ "=" ++ p.2))).data
                ++ tail)))) =
            .ok (p.2.data, ';' :: ' ' ::
              ((joinSep "; " ((q :: qs).map (fun p => p.1 ++ "=" ++ p.2))).data
                ++ tail)) := by
          rw [hw2]
          exact tokenOrQuotedString_token hval
            (by intro c hc; simp at hc; subst hc; exact ⟨by decide, by decide⟩)
        rw [innerLoopF_pair_semi f val hw htok htok2
          (consumeWhitespace_cons (by decide)), hins,
          show (' ' :: ((joinSep "; " ((q :: qs).map (fun p => p.1 ++ "=" ++ p.2))).data
              ++ tail)) =
            [' '] ++ ((joinSep "; " ((q :: qs).map (fun p => p.1 ++ "=" ++ p.2))).data
              ++ tail) from rfl,
          innerLoopF_skip_spaces f _ _ (by intro c hc; simp at hc; subst hc; decide)]
        rw [ih f { val with Pairs := val.Pairs ++ [p] } tail (by simp)
          (fun r hr => htoks r (by simp [hr]))
          (by
            intro p' hp' q' hq'
            rcases List.mem_append.mp hq' with hq' | hq'
            · exact hfresh p' (by simp [hp']) q' hq'
            · have : q' = p := by simpa using hq'
              subst this
              exact fun he => (hdp p' hp') he.symm)
          hdps htail
          (by
            simp only [List.length_append, List.length_cons] at hfuel ⊢
            omega)]
        simp

/-- Parsing one serialized well-formed value at the start of the inner
loop: the value is reconstructed exactly and the parse continues at the
rest of the input (`tl.tail.tail` is what follows the `", "` separator),
possibly after a leftover space when the value ended in pairs. -/
theorem innerLoopF_value_start (v : Value) (tl : List Char) :
    ∀ f : Nat, wfValue v →
      (tl = [] ∨ ∃ more, tl = ',' :: ' ' :: more) →
      ((serializeValueWS v).data ++ tl).length < f →
      ∃ pre : List Char, (∀ c ∈ pre, isSpace c = true) ∧
        pre.length + 1 ≤ (serializeValueWS v).data.length ∧
        innerLoopF f ((serializeValueWS v).data ++ tl) ⟨"", []⟩ =
          .ok (.commit v (pre ++ tl.tail.tail)) := by
  intro f hv htail hfuel
  obtain ⟨hprim, hpairs, hdup, hne⟩ := hv
  cases hps : v.Pairs with
  | nil =>
    have hpne : v.Primary ≠ "" := by
      rcases hne with h | h
      · exact h
      · exact absurd hps h
    have hdne : v.Primary.data ≠ [] := by
      intro hd; apply hpne; cases hPrim : v.Primary; simp_all
    have hsv : serializeValueWS v = v.Primary := by
      simp [serializeValueWS, hps, joinSep]
    rw [hsv] at hfuel ⊢
    have hlen : 1 ≤ v.Primary.data.length :=
      Nat.one_le_iff_ne_zero.mpr (fun h0 => hdne (List.eq_nil_of_length_eq_zero h0))
    rcases htail with rfl | ⟨more, rfl⟩
    · refine ⟨[], by simp, by simpa using hlen, ?_⟩
      cases f with
      | zero => exact absurd hfuel (by omega)
      | succ f =>
        have hw : consumeWhitespace (v.Primary.data ++ []) = v.Primary.data ++ [] :=
          consumeWhitespace_token_append hprim (by intro c hc; simp at hc)
        have htok : tokenOrQuotedString (v.Primary.data ++ []) =
            .ok (v.Primary.data, []) :=
          tokenOrQuotedString_token hprim (by intro c hc; simp at hc)
        rw [innerLoopF_single f ⟨"", []⟩ (by simp [hdne]) hw htok]
        conv_rhs => rw [show v = (⟨v.Primary, v.Pairs⟩ : Value) from rfl, hps]
        rfl
    · refine ⟨[], by simp, by simpa using hlen, ?_⟩
      cases f with
      | zero => exact absurd hfuel (by omega)
      | succ f =>
        have hw : consumeWhitespace (v.Primary.data ++ (',' :: ' ' :: more)) =
            v.Primary.data ++ (',' :: ' ' :: more) :=
          consumeWhitespace_token_append hprim
            (by intro c hc; simp at hc; subst hc; decide)
        have htok : tokenOrQuotedString (v.Primary.data ++ (',' :: ' ' :: more)) =
            .ok (v.Primary.data, ',' :: (' ' :: more)) :=
          tokenOrQuotedString_token hprim
            (by intro c hc; simp at hc; subst hc; exact ⟨by decide, by decide⟩)
        rw [innerLoopF_comma f ⟨"", []⟩ hw htok]
        conv_rhs => rw [show v = (⟨v.Primary, v.Pairs⟩ : Value) from rfl, hps]
        rfl
  | cons p ps =>
    have hsv : (serializeValueWS v).data ++ tl =
        v.Primary.data ++ (';' :: ' ' ::
          ((joinSep "; " ((p :: ps).map (fun p => p.1 ++ "=" ++ p.2))).data ++ tl)) := by
      simp [serializeValueWS, hps, joinSep_pair, String.data_append,
        show ("; " : String).data = [';', ' '] from rfl]
    have hsvlen : 2 ≤ (serializeValueWS v).data.length := by
      have := congrArg List.length hsv
      simp only [List.length_append, List.length_cons] at this
      omega
    rw [hsv] at hfuel
    cases f with
    | zero => exact absurd hfuel (by omega)
    | succ f =>
      have hw : consumeWhitespace (v.Primary.data ++ (';' :: ' ' ::
            ((joinSep "; " ((p :: ps).map (fun p => p.1 ++ "=" ++ p.2))).data ++ tl))) =
          v.Primary.data ++ (';' :: ' ' ::
            ((joinSep "; " ((p :: ps).map (fun p => p.1 ++ "=" ++ p.2))).data ++ tl)) :=
        consumeWhitespace_token_append hprim
          (by intro c hc; simp at hc; subst hc; decide)
      have htok : tokenOrQuotedString (v.Primary.data ++ (';' :: ' ' ::
            ((joinSep "; " ((p :: ps).map (fun p => p.1 ++ "=" ++ p.2))).data ++ tl))) =
          .ok (v.Primary.data, ';' :: (' ' ::
            ((joinSep "; " ((p :: ps).map (fun p => p.1 ++ "=" ++ p.2))).data ++ tl))) :=
        tokenOrQuotedString_token hprim
          (by intro c hc; simp at hc; subst hc; exact ⟨by decide, by decide⟩)
      have hmain : innerLoopF (f + 1) ((serializeValueWS v).data ++ tl) ⟨"", []⟩ =
          .ok (.commit v tl.tail) := by
        rw [hsv]
        rw [innerLoopF_semi f ⟨"", []⟩ hw htok (by simp)]
        show innerLoopF f
            ((joinSep "; " ((p :: ps).map (fun p => p.1 ++ "=" ++ p.2))).data ++ tl)
            (⟨v.Primary, []⟩ : Value) =
          .ok (.commit v tl.tail)
        rw [innerLoopF_pairs_loop (p :: ps) f ⟨v.Primary, []⟩ tl (by simp)
          (by rw [← hps]; exact hpairs)
          (by intro a _ q hq; simp at hq)
          (by rw [← hps]; exact hdup)
          htail
          (by
            have := congrArg List.length hsv
            simp only [List.length_append, List.length_cons] at this hfuel ⊢
            omega)]
        conv_rhs => rw [show v = (⟨v.Primary, v.Pairs⟩ : Value) from rfl, hps]
        rfl
      rcases htail with rfl | ⟨more, rfl⟩
      · exact ⟨[], by simp, by simp only [List.length_nil]; omega, by rw [hmain]; rfl⟩
      · exact ⟨[' '], by decide,
          by simp only [List.length_cons, List.length_nil]; omega,
          by rw [hmain]; rfl⟩

/-- The outer loop returns the accumulated values unchanged on all-space
input. -/
theorem outerLoopF_all_space (f : Nat) (pre : List Char) (acc : ValueList)
    (hpre : ∀ c ∈ pre, isSpace c = true) (hf : pre.length < f) :
    outerLoopF f pre acc = (acc, none) := by
  by_cases hp : pre = []
  · subst hp; exact outerLoopF_nil f acc
  · cases f with
    | zero => exact absurd hf (by omega)
    | succ f =>
      have hin : innerLoopF (pre.length + 1) pre ⟨"", []⟩ = .ok .discardEnd := by
        have h1 : innerLoopF (pre.length + 1) pre ⟨"", []⟩ =
            innerLoopF (pre.length + 1) (pre ++ []) ⟨"", []⟩ := by
          rw [List.append_nil]
        rw [h1, innerLoopF_skip_spaces _ _ _ hpre]
        exact innerLoopF_nil _ _
      exact outerLoopF_step_discard f acc hp hin

/-- Parsing the full serialization of a well-formed value list appends
exactly those values to the accumulator. -/
theorem outerLoopF_roundtrip (vl : ValueList) :
    ∀ (f : Nat) (acc : ValueList) (pre : List Char),
      (∀ v ∈ vl, wfValue v) →
      (∀ c ∈ pre, isSpace c = true) →
      (pre ++ (serializeValueListWS vl).data).length < f →
      outerLoopF f (pre ++ (serializeValueListWS vl).data) acc = (acc ++ vl, none) := by
  induction vl with
  | nil =>
    intro f acc pre _ hpre hfuel
    rw [show (serializeValueListWS ([] : ValueList)).data = [] from rfl,
      List.append_nil] at hfuel ⊢
    rw [outerLoopF_all_space f pre acc hpre hfuel]
    simp
  | cons v vs ih =>
    intro f acc pre hwf hpre hfuel
    have hv := hwf v (by simp)
    cases vs with
    | nil =>
      rw [show serializeValueListWS [v] = serializeValueWS v from rfl] at hfuel ⊢
      cases f with
      | zero => exact absurd hfuel (by omega)
      | succ f =>
        have hne : pre ++ (serializeValueWS v).data ≠ [] := by
          simp [serializeValueWS_ne_nil hv]
        obtain ⟨pre2, hpre2, hp2len, hres⟩ :=
          innerLoopF_value_start v []
            ((pre ++ (serializeValueWS v).data).length + 1) hv (Or.inl rfl)
            (by simp only [List.length_append, List.append_nil, List.length_nil]; omega)
        have hin : innerLoopF ((pre ++ (serializeValueWS v).data).length + 1)
            (pre ++ (serializeValueWS v).data) ⟨"", []⟩ = .ok (.commit v pre2) := by
          have h1 := innerLoopF_skip_spaces
            ((pre ++ (serializeValueWS v).data).length + 1)
            (serializeValueWS v).data (⟨"", []⟩ : Value) hpre
          have h2 : innerLoopF ((pre ++ (serializeValueWS v).data).length + 1)
              (serializeValueWS v).data ⟨"", []⟩ = .ok (.commit v pre2) := by
            have h3 : (serializeValueWS v).data = (serializeValueWS v).data ++ [] := by
              simp
            rw [h3]
            simpa using hres
          exact h1.trans h2
        rw [outerLoopF_step_commit f acc hne hin]
        rw [outerLoopF_all_space f pre2 (acc ++ [v]) hpre2
          (by simp only [List.length_append] at hfuel; omega)]
    | cons w ws =>
      have hs : (serializeValueListWS (v :: w :: ws)).data =
          (serializeValueWS v).data ++
            (',' :: ' ' :: (serializeValueListWS (w :: ws)).data) := by
        simp [serializeValueListWS, joinSep_pair, String.data_append,
          show (", " : String).data = [',', ' '] from rfl]
      rw [hs] at hfuel ⊢
      cases f with
      | zero => exact absurd hfuel (by omega)
      | succ f =>
        have hne : pre ++ ((serializeValueWS v).data ++
            (',' :: ' ' :: (serializeValueListWS (w :: ws)).data)) ≠ [] := by simp
        obtain ⟨pre2, hpre2, hp2len, hres⟩ :=
          innerLoopF_value_start v
            (',' :: ' ' :: (serializeValueListWS (w :: ws)).data)
            ((pre ++ ((serializeValueWS v).data ++
              (',' :: ' ' :: (serializeValueListWS (w :: ws)).data))).length + 1)
            hv (Or.inr ⟨_, rfl⟩)
            (by simp only [List.length_append, List.length_cons]; omega)
        have hin : innerLoopF ((pre ++ ((serializeValueWS v).data ++
              (',' :: ' ' :: (serializeValueListWS (w :: ws)).data))).length + 1)
            (pre ++ ((serializeValueWS v).data ++
              (',' :: ' ' :: (serializeValueListWS (w :: ws)).data))) ⟨"", []⟩ =
            .ok (.commit v (pre2 ++ (serializeValueListWS (w :: ws)).data)) := by
          have h1 := innerLoopF_skip_spaces
            ((pre ++ ((serializeValueWS v).data ++
              (',' :: ' ' :: (serializeValueListWS (w :: ws)).data))).length + 1)
            ((serializeValueWS v).data ++
              (',' :: ' ' :: (serializeValueListWS (w :: ws)).data))
            (⟨"", []⟩ : Value) hpre
          exact h1.trans (by simpa using hres)
        rw [outerLoopF_step_commit f acc hne hin]
        rw [ih f (acc ++ [v]) pre2 (fun u hu => hwf u (by simp [hu])) hpre2
          (by
            simp only [List.length_append, List.length_cons] at hfuel ⊢
            omega)]
        simp

/-- Claim C1: the spec asserts that `"foo; charset=UTF-8"`,
`"foo;charset=UTF-8"` and `"foo ; charset = UTF-8"` all parse to the same
one-element list with primary `"foo"` and pairs `{"charset": "UTF-8"}`.
The code disagrees on the middle input: after parsing the primary it
advances past the `';'` twice, so the first letter of `charset` is consumed
and the parsed key is `"harset"`.  This theorem records the code's actual
behaviour on all three inputs. -/
theorem C1_whitespace_insensitivity_fails :
    ParseValueList "foo; charset=UTF-8" = ([⟨"foo", [("charset", "UTF-8")]⟩], none) ∧
    ParseValueList "foo ; charset = UTF-8" = ([⟨"foo", [("charset", "UTF-8")]⟩], none) ∧
    ParseValueList "foo;charset=UTF-8" = ([⟨"foo", [("harset", "UTF-8")]⟩], none) := by
  exact ⟨by decide, by decide, by decide⟩

/-- Claim C9: when a primary element is followed by its delimiter with no
intervening whitespace, the cursor is advanced past the delimiter twice and
the first character of the following content is consumed:
`"foo,bar"` parses to primaries `"foo"` and `"ar"`, and
`"foo;charset=UTF-8"` parses to the single pair key `"harset"`. -/
theorem C9_double_delimiter_advance :
    ParseValueList "foo,bar" = ([⟨"foo", []⟩, ⟨"ar", []⟩], none) ∧
    ParseValueList "foo;charset=UTF-8" = ([⟨"foo", [("harset", "UTF-8")]⟩], none) := by
  exact ⟨by decide, by decide⟩

/-- Claim C10: a position where both the quoted-string and the token
readers yield an empty element is not by itself an error: `"="` parses to
one `Value` whose pairs map the empty key to the empty value, and `";"`
parses to one `Value` with empty primary and no pairs. -/
theorem C10_empty_elements_not_error :
    ParseValueList "=" = ([⟨"", [("", "")]⟩], none) ∧
    ParseValueList ";" = ([⟨"", []⟩], none) := by
  exact ⟨by decide, by decide⟩

/-- Claim C4: whenever the parse ends with an error, the returned
`ValueList` is empty — no partial result escapes, no matter how many
values had already been committed. -/
theorem C4_error_returns_nil (s : String)
    (h : (ParseValueList s).2.isSome = true) : (ParseValueList s).1 = [] := by
  rcases hp : ParseValueList s with ⟨vl, oe⟩
  cases oe with
  | none => rw [hp] at h; exact absurd h (by simp)
  | some e => exact outerLoopF_error_nil (s.data.length + 1) hp

/-- Witness for C4 at the erroring input `"foo, bar:baz"` (the second value
commits `"foo"` before the error is hit, and it is still discarded). -/
theorem C4_error_returns_nil_witness :
    (ParseValueList "foo, bar:baz").1 = [] :=
  C4_error_returns_nil "foo, bar:baz" (by decide)

/-- Claim C8: the parser terminates on every input in the sense of the
fuel model: any iteration bound exceeding the input length yields the same
result as the canonical `length + 1` bound used by `ParseValueList` — the
single forward pass stabilizes within `length + 1` outer iterations. -/
theorem C8_terminates_fuel_irrelevant (s : String) (f : Nat)
    (h : s.data.length < f) :
    outerLoopF f s.data [] = ParseValueList s :=
  outerLoopF_fuel_irrelevant f h (Nat.lt_succ_self _)

/-- Witness for C8 at `"foo; charset=UTF-8"` with a much larger bound. -/
theorem C8_terminates_witness :
    outerLoopF 1000 ("foo; charset=UTF-8" : String).data [] =
      ParseValueList "foo; charset=UTF-8" :=
  C8_terminates_fuel_irrelevant "foo; charset=UTF-8" 1000 (by decide)

/-- Claim C2, counterexample: the claim says that whenever the input ends
while a `Value` is in progress and at least one element of it has been
parsed, the value is committed.  For `"foo;"` this happens (end of input is
detected at the delimiter check, line 76).  But for `"foo; "` the parser
has equally set the in-progress value's primary to `"foo"`, consumes the
`';'`, and then hits end of input at the head of the next inner-loop
iteration (after skipping the trailing space), which `break`s the outer
loop (line 43) and discards the value: the result is the empty list, not a
one-element list. -/
theorem C2_counterexample_trailing_space :
    ParseValueList "foo;" = ([⟨"foo", []⟩], none) ∧
    ParseValueList "foo; " = ([], none) := by
  exact ⟨by decide, by decide⟩

/-- Claim C5: every nonempty string of token characters parses to a single
`Value` whose primary is that string, with no pairs. -/
theorem C5_single_token (t : String) (h1 : t ≠ "")
    (h2 : ∀ c ∈ t.data, isTokenChar c = true) :
    ParseValueList t = ([⟨t, []⟩], none) := by
  have hd : t.data ≠ [] := by
    intro hd; apply h1; cases t; simp_all
  have hw : consumeWhitespace t.data = t.data := by
    have := @consumeWhitespace_token_append t.data [] h2 (by intro c hc; simp at hc)
    simpa using this
  have htok : tokenOrQuotedString t.data = .ok (t.data, []) := by
    have := @tokenOrQuotedString_token t.data [] h2 (by intro c hc; simp at hc)
    simpa using this
  have hin : innerLoopF (t.data.length + 1) t.data ⟨"", []⟩ =
      .ok (.commit ⟨t, []⟩ []) :=
    innerLoopF_single t.data.length ⟨"", []⟩ hd hw htok
  show outerLoopF (t.data.length + 1) t.data [] = ([⟨t, []⟩], none)
  rw [outerLoopF_step_commit _ _ hd hin, outerLoopF_nil]
  rfl

/-- Witness for C5 at `t = "foo"`. -/
theorem C5_single_token_witness : ParseValueList "foo" = ([⟨"foo", []⟩], none) :=
  C5_single_token "foo" (by decide) (by decide)

/-- Claim C6: for any string `s` without a double quote, the quoted form
`"s"` parses to a single `Value` whose primary is `s` itself (quotes
stripped, interior verbatim) and whose pairs are empty. -/
theorem C6_quoted_primary (s : String) (h : ∀ c ∈ s.data, c ≠ '"') :
    ParseValueList ("\"" ++ s ++ "\"") = ([⟨s, []⟩], none) := by
  have hdata : ("\"" ++ s ++ "\"").data = '"' :: (s.data ++ '"' :: []) := by
    simp [String.data_append]
  have htok : tokenOrQuotedString ('"' :: (s.data ++ '"' :: [])) = .ok (s.data, []) :=
    @tokenOrQuotedString_quoted s.data [] h
  have hne : ('"' :: (s.data ++ '"' :: [])) ≠ [] := by simp
  have hw : consumeWhitespace ('"' :: (s.data ++ '"' :: [])) = '"' :: (s.data ++ '"' :: []) :=
    consumeWhitespace_cons (by decide)
  have hin : innerLoopF (('"' :: (s.data ++ '"' :: [])).length + 1)
      ('"' :: (s.data ++ '"' :: [])) ⟨"", []⟩ = .ok (.commit ⟨s, []⟩ []) :=
    innerLoopF_single _ ⟨"", []⟩ hne hw htok
  show outerLoopF (("\"" ++ s ++ "\"").data.length + 1) ("\"" ++ s ++ "\"").data [] =
    ([⟨s, []⟩], none)
  rw [hdata, outerLoopF_step_commit _ _ hne hin, outerLoopF_nil]
  rfl

/-- Witness for C6 at `s = "a b"` (interior with a space, no quotes). -/
theorem C6_quoted_primary_witness :
    ParseValueList ("\"" ++ "a b" ++ "\"") = ([⟨"a b", []⟩], none) :=
  C6_quoted_primary "a b" (by decide)

/-- Claim C7, the `ParseQuotedString` contract: an input that does not
start with `'"'` yields `""` with no error; an input `'"' ++ pre ++ '"' ++
post` with `pre` quote-free yields exactly `pre` (the characters strictly
between the opening quote and the first closing one); an input starting
with `'"'` but containing no further quote yields the malformed-quoted-
string error. -/
theorem C7_parse_quoted_string_contract (v : String) :
    (v.data.head? ≠ some '"' → ParseQuotedString v = .ok "") ∧
    (∀ pre post : String, v.data = '"' :: (pre.data ++ '"' :: post.data) →
      (∀ c ∈ pre.data, c ≠ '"') → ParseQuotedString v = .ok pre) ∧
    (∀ rest : List Char, v.data = '"' :: rest → (∀ c ∈ rest, c ≠ '"') →
      ParseQuotedString v = .error (.malformedQuotedString v)) := by
  refine ⟨?_, ?_, ?_⟩
  · intro hc
    cases hv : v.data with
    | nil => simp [ParseQuotedString, hv]
    | cons c rest =>
      rw [hv] at hc
      simp only [List.head?_cons, ne_eq, Option.some.injEq] at hc
      simp [ParseQuotedString, hv, hc]
  · intro pre post hv hpre
    have hany : (pre.data ++ '"' :: post.data).any (fun d => d = '"') = true :=
      List.any_eq_true.mpr ⟨'"', by simp, by simp⟩
    have htake :
        List.takeWhile (fun d => !(d = '"')) (pre.data ++ '"' :: post.data) = pre.data := by
      rw [List.takeWhile_append_of_pos (by intro a ha; simpa using hpre a ha)]
      simp [List.takeWhile_cons]
    simp [ParseQuotedString, hv, hany, htake]
  · intro rest hv hrest
    have hany : rest.any (fun d => d = '"') = false := by
      rw [Bool.eq_false_iff]
      intro hx
      rcases List.any_eq_true.mp hx with ⟨d, hd, hdq⟩
      exact hrest d hd (of_decide_eq_true hdq)
    simp [ParseQuotedString, hv, hany]

/-- Witness for C7: all three cases of the contract at concrete inputs. -/
theorem C7_parse_quoted_string_witness :
    ParseQuotedString "abc" = .ok "" ∧
    ParseQuotedString "\"ab\"cd" = .ok "ab" ∧
    ParseQuotedString "\"ab" = .error (.malformedQuotedString "\"ab") :=
  ⟨(C7_parse_quoted_string_contract "abc").1 (by decide),
   (C7_parse_quoted_string_contract "\"ab\"cd").2.1 "ab" "cd" (by decide) (by decide),
   (C7_parse_quoted_string_contract "\"ab").2.2 ['a', 'b'] (by decide) (by decide)⟩

/-- Claim C2, amended: for a nonempty token string `t`, end of input
reached at the delimiter check right after the element commits the
in-progress value (`t ++ ";"` parses to one value with primary `t`), but
end of input reached at the head of the next inner-loop iteration discards
it (`t ++ "; "` parses to the empty list). -/
theorem C2_amended_commit_vs_discard (t : String) (h1 : t ≠ "")
    (h2 : ∀ c ∈ t.data, isTokenChar c = true) :
    ParseValueList (t ++ ";") = ([⟨t, []⟩], none) ∧
    ParseValueList (t ++ "; ") = ([], none) := by
  have hd : t.data ≠ [] := by
    intro hd; apply h1; cases t; simp_all
  constructor
  · have hdata : (t ++ ";").data = t.data ++ [';'] := by
      simp [String.data_append]
    have hw : consumeWhitespace (t.data ++ [';']) = t.data ++ [';'] :=
      consumeWhitespace_token_append h2
        (by intro c hc; simp at hc; subst hc; decide)
    have htok : tokenOrQuotedString (t.data ++ [';']) = .ok (t.data, [';']) :=
      tokenOrQuotedString_token h2
        (by intro c hc; simp at hc; subst hc; exact ⟨by decide, by decide⟩)
    have hin : innerLoopF ((t.data ++ [';']).length + 1) (t.data ++ [';']) ⟨"", []⟩ =
        .ok (.commit ⟨t, []⟩ []) :=
      innerLoopF_semi_end _ ⟨"", []⟩ hw htok
    have hne : t.data ++ [';'] ≠ [] := by simp
    show outerLoopF ((t ++ ";").data.length + 1) (t ++ ";").data [] = ([⟨t, []⟩], none)
    rw [hdata, outerLoopF_step_commit _ _ hne hin, outerLoopF_nil]
    rfl
  · have hdata : (t ++ "; ").data = t.data ++ [';', ' '] := by
      simp [String.data_append]
    have hw : consumeWhitespace (t.data ++ [';', ' ']) = t.data ++ [';', ' '] :=
      consumeWhitespace_token_append h2
        (by intro c hc; simp at hc; subst hc; decide)
    have htok : tokenOrQuotedString (t.data ++ [';', ' ']) = .ok (t.data, [';', ' ']) :=
      tokenOrQuotedString_token h2
        (by intro c hc; simp at hc; subst hc; exact ⟨by decide, by decide⟩)
    have hin : innerLoopF ((t.data ++ [';', ' ']).length + 1)
        (t.data ++ [';', ' ']) ⟨"", []⟩ = .ok .discardEnd := by
      rw [innerLoopF_semi _ ⟨"", []⟩ hw htok (by simp)]
      exact innerLoopF_nil _ _
    have hne : t.data ++ [';', ' '] ≠ [] := by simp
    show outerLoopF ((t ++ "; ").data.length + 1) (t ++ "; ").data [] = ([], none)
    rw [hdata, outerLoopF_step_discard _ _ hne hin]

/-- Witness for the amended C2 at `t = "foo"`. -/
theorem C2_amended_witness :
    ParseValueList ("foo" ++ ";") = ([⟨"foo", []⟩], none) ∧
    ParseValueList ("foo" ++ "; ") = ([], none) :=
  C2_amended_commit_vs_discard "foo" (by decide) (by decide)

/-- Claim C3, counterexample: `ParseValueList ";"` succeeds with
`[⟨"", []⟩]`; serializing that list as the claim describes (joining with
`","` and `";"`) gives the empty string, which re-parses to the empty
list, not to `[⟨"", []⟩]` — the round-trip fails. -/
theorem C3_counterexample_roundtrip :
    ParseValueList ";" = ([⟨"", []⟩], none) ∧
    serializeValueList [⟨"", []⟩] = "" ∧
    ParseValueList (serializeValueList (ParseValueList ";").1) = ([], none) ∧
    ([] : ValueList) ≠ [⟨"", []⟩] := by
  exact ⟨by decide, by decide, by decide, by decide⟩

/-- Claim C3, amended: the round-trip holds on the well-formed fragment
(nonempty values, token-only primaries/keys/values, distinct keys) when the
serialization writes `"; "` and `", "` — each delimiter followed by the
single space the parser's double delimiter advance requires: re-parsing
the serialization of such a `ValueList` reproduces it exactly, with no
error. -/
theorem C3_amended_roundtrip (vl : ValueList) (h : ∀ v ∈ vl, wfValue v) :
    ParseValueList (serializeValueListWS vl) = (vl, none) := by
  have hr := outerLoopF_roundtrip vl ((serializeValueListWS vl).data.length + 1)
    [] [] h (by simp) (by simp)
  simpa [ParseValueList] using hr

/-- Witness for the amended C3 at a two-value list exercising primaries,
multiple pairs, and an empty primary. -/
theorem C3_amended_roundtrip_witness :
    ParseValueList (serializeValueListWS
        [⟨"foo", [("charset", "UTF-8"), ("q", "1")]⟩, ⟨"", [("a", "b")]⟩]) =
      ([⟨"foo", [("charset", "UTF-8"), ("q", "1")]⟩, ⟨"", [("a", "b")]⟩], none) :=
  C3_amended_roundtrip _ (by decide)

end ValueComponents
